import Mathlib

set_option synthInstance.maxSize 4096

/-!
Verification of the n-gram code-suggestion trainer (`code_model_trainer.py`).

The Python strings are modelled as lists of Unicode code points (`List Nat`):
this is faithful to Python's `str`, which is a sequence of code points and may
in principle hold lone surrogates.  Python `dict`s (which preserve insertion
order) are modelled as association lists updated in place, `set` as a
duplicate-free list in insertion order, and `collections.Counter` as an
association list from token to count.

File reading, `os.path.splitext` extension derivation, the `json` whole-file
dump/parse and the gzip codec are external collaborators (spec §1, §6): a read
outcome is passed to `train_on_file` as an `Option`, `save`/`load` transport
the serializable snapshot structure unchanged, and the language tag (the
lower-cased file extension) is a parameter.  The repository's own context-key
codec — `json.dumps(list(context))` on save and `tuple(json.loads(key))` on
load — is embedded in full, including `ensure_ascii` escaping and surrogate
pairs.
-/

/-- Code points of a Lean string literal, for writing Python string values. -/
def toCP (s : String) : List Nat := s.data.map Char.toNat

/-- A Python string value: a list of Unicode code points. -/
abbrev Tok := List Nat

/-! ## Association lists: Python `dict` / `Counter` -/

/-- `d.get(k)`: first value bound to `k`, if any. -/
def alook {κ ν : Type} [DecidableEq κ] (k : κ) : List (κ × ν) → Option ν
  | [] => none
  | (k₁, v) :: rest => if k = k₁ then some v else alook k rest

/-- `d[k] = f(d.get(k, dflt))`: update the entry for `k` in place, or append a
fresh entry built from the default — the `defaultdict` access pattern. -/
def updAt {κ ν : Type} [DecidableEq κ] (k : κ) (f : ν → ν) (dflt : ν) :
    List (κ × ν) → List (κ × ν)
  | [] => [(k, f dflt)]
  | (k₁, v) :: rest =>
      if k = k₁ then (k₁, f v) :: rest else (k₁, v) :: updAt k f dflt rest

/-- Sum of a measure of the values of an association list. -/
def sumBy {κ ν : Type} (m : ν → Nat) (l : List (κ × ν)) : Nat :=
  l.foldr (fun p acc => m p.2 + acc) 0

/-- `s.add(x)` on a Python set modelled as a duplicate-free list. -/
def setAdd {α : Type} [DecidableEq α] (x : α) (l : List α) : List α :=
  if x ∈ l then l else l ++ [x]

/-! ## Character classes used by the tokenizer regexes -/

/-- `[a-zA-Z_]` — start of an identifier. -/
def isIdentStart (c : Nat) : Bool :=
  (65 ≤ c && c ≤ 90) || (97 ≤ c && c ≤ 122) || c = 95

/-- `[a-zA-Z0-9_]` — identifier continuation. -/
def isIdentChar (c : Nat) : Bool := isIdentStart c || (48 ≤ c && c ≤ 57)

/-- `[0-9.]` — the numeric-literal class. -/
def isNumDot (c : Nat) : Bool := (48 ≤ c && c ≤ 57) || c = 46

/-- The operator-cluster class (plus minus star slash equals angle brackets
bang ampersand pipe caret tilde percent). -/
def isOpChar (c : Nat) : Bool :=
  c = 43 || c = 45 || c = 42 || c = 47 || c = 61 || c = 60 || c = 62 ||
  c = 33 || c = 38 || c = 124 || c = 94 || c = 126 || c = 37

/-- Punctuation class of the Python/JS/general profiles: colon semicolon comma
dot parens square brackets curly brackets. -/
def punctChars : List Nat := [58, 59, 44, 46, 40, 41, 91, 93, 123, 125]

/-- Punctuation class of the C# profile: the same plus angle brackets. -/
def punctCharsCs : List Nat := punctChars ++ [60, 62]

/-- Code points stripped by Python `str.strip()` (`str.isspace` characters). -/
def pyIsSpace (c : Nat) : Bool :=
  (9 ≤ c && c ≤ 13) || (28 ≤ c && c ≤ 31) || c = 32 || c = 133 || c = 160 ||
  c = 5760 || (8192 ≤ c && c ≤ 8202) || c = 8232 || c = 8233 || c = 8239 ||
  c = 8287 || c = 12288

/-- Python `line.strip()`. -/
def pstrip (l : List Nat) : List Nat :=
  ((l.dropWhile pyIsSpace).reverse.dropWhile pyIsSpace).reverse

/-- Python `content.split(chr(10))`: always at least one piece. -/
def splitNl : List Nat → List (List Nat)
  | [] => [[]]
  | c :: rest =>
      if c = 10 then [] :: splitNl rest
      else
        match splitNl rest with
        | [] => [[c]]
        | piece :: pieces => (c :: piece) :: pieces

/-! ## The `re.findall` engine for the four fixed tokenizer regexes

Each regex is an ordered alternation of simple branches (literal keywords,
greedy character-class runs, single punctuation characters, lazy quoted
spans); `re.findall` tries the branches left-to-right at each position,
emitting the first match, and skips one character when none matches. -/

/-- One literal alternative: matches iff the literal is a prefix here. -/
def matchLit (lit : Tok) (s : List Nat) : Option (Tok × List Nat) :=
  if lit.isPrefixOf s then some (lit, s.drop lit.length) else none

/-- An ordered run of literal alternatives (the keyword part of a regex). -/
def matchLits (lits : List Tok) (s : List Nat) : Option (Tok × List Nat) :=
  match lits with
  | [] => none
  | l :: rest =>
      match matchLit l s with
      | some r => some r
      | none => matchLits rest s

/-- `[a-zA-Z_][a-zA-Z0-9_]*` — greedy. -/
def matchIdent (s : List Nat) : Option (Tok × List Nat) :=
  match s with
  | [] => none
  | c :: rest =>
      if isIdentStart c then
        some (c :: rest.takeWhile isIdentChar, rest.dropWhile isIdentChar)
      else none

/-- A greedy one-or-more run of a character class. -/
def matchRun (p : Nat → Bool) (s : List Nat) : Option (Tok × List Nat) :=
  match s.takeWhile p with
  | [] => none
  | c :: rest => some (c :: rest, s.dropWhile p)

/-- A single punctuation character from a fixed set. -/
def matchPunct (cs : List Nat) (s : List Nat) : Option (Tok × List Nat) :=
  match s with
  | [] => none
  | c :: rest => if c ∈ cs then some ([c], rest) else none

/-- A lazy quoted span `q.*?q` (the dot never spans a line break because the
input is a single line). -/
def matchQuote (q : Nat) (s : List Nat) : Option (Tok × List Nat) :=
  match s with
  | [] => none
  | c :: rest =>
      if c = q then
        match rest.dropWhile (fun d => decide (d ≠ q)) with
        | [] => none
        | _ :: after =>
            some ((q :: rest.takeWhile (fun d => decide (d ≠ q))) ++ [q], after)
      else none

/-- The C# verbatim-string branch: an at-sign followed by a lazy quoted span. -/
def matchVerbatim (s : List Nat) : Option (Tok × List Nat) :=
  match s with
  | [] => none
  | c :: rest =>
      if c = 64 then
        (matchQuote 34 rest).map (fun p => (64 :: p.1, p.2))
      else none

/-- Try the alternatives of a regex in order; first match wins. -/
def tryAlts (alts : List (List Nat → Option (Tok × List Nat)))
    (s : List Nat) : Option (Tok × List Nat) :=
  match alts with
  | [] => none
  | a :: rest =>
      match a s with
      | some r => some r
      | none => tryAlts rest s

/-- The `re.findall` scan: emit the first match at each position, else skip one
character.  Every branch of every profile consumes at least one character, so
fuel `s.length + 1` never runs out. -/
def findallGo (alts : List (List Nat → Option (Tok × List Nat))) :
    Nat → List Nat → List Tok
  | 0, _ => []
  | _ + 1, [] => []
  | fuel + 1, c :: cs =>
      match tryAlts alts (c :: cs) with
      | some (t, rest) => t :: findallGo alts fuel rest
      | none => findallGo alts fuel cs

/-- `re.findall(pattern, line)` for one of the fixed tokenizer patterns. -/
def findall (alts : List (List Nat → Option (Tok × List Nat)))
    (s : List Nat) : List Tok :=
  findallGo alts (s.length + 1) s

/-- The C# keyword alternatives, in regex order. -/
def csharpKws : List Tok :=
  [toCP "public", toCP "private", toCP "protected", toCP "internal",
   toCP "class", toCP "interface", toCP "struct", toCP "enum", toCP "void",
   toCP "string", toCP "int", toCP "bool", toCP "float", toCP "double",
   toCP "var", toCP "new", toCP "using", toCP "namespace", toCP "get",
   toCP "set", toCP "return", toCP "if", toCP "else", toCP "for",
   toCP "foreach", toCP "while", toCP "switch", toCP "case", toCP "break",
   toCP "continue"]

/-- The JavaScript/TypeScript literal alternatives, in regex order (the arrow
`=>` is a literal branch between the keywords and the identifier class). -/
def jsKws : List Tok :=
  [toCP "function", toCP "const", toCP "let", toCP "var", toCP "class",
   toCP "interface", toCP "type", toCP "export", toCP "import", toCP "from",
   toCP "default", toCP "return", toCP "if", toCP "else", toCP "for",
   toCP "while", toCP "switch", toCP "case", toCP "break", toCP "continue",
   toCP "=>"]

/-- The Python keyword alternatives, in regex order. -/
def pyKws : List Tok :=
  [toCP "def", toCP "class", toCP "self", toCP "import", toCP "from",
   toCP "as", toCP "return", toCP "if", toCP "elif", toCP "else", toCP "for",
   toCP "while", toCP "in", toCP "try", toCP "except", toCP "finally",
   toCP "with", toCP "lambda"]

/-- Alternation of `_tokenize_csharp`'s regex, in order. -/
def csharpAlts : List (List Nat → Option (Tok × List Nat)) :=
  [matchLits csharpKws, matchIdent, matchRun isNumDot, matchRun isOpChar,
   matchPunct punctCharsCs, matchQuote 34, matchQuote 39, matchVerbatim]

/-- Alternation of `_tokenize_javascript`'s regex, in order (code point 96 is
the template-literal quote). -/
def jsAlts : List (List Nat → Option (Tok × List Nat)) :=
  [matchLits jsKws, matchIdent, matchRun isNumDot, matchRun isOpChar,
   matchPunct punctChars, matchQuote 34, matchQuote 39, matchQuote 96]

/-- Alternation of `_tokenize_python`'s regex, in order. -/
def pyAlts : List (List Nat → Option (Tok × List Nat)) :=
  [matchLits pyKws, matchIdent, matchRun isNumDot, matchRun isOpChar,
   matchPunct punctChars, matchQuote 34, matchQuote 39]

/-- Alternation of `_tokenize_general`'s regex, in order. -/
def generalAlts : List (List Nat → Option (Tok × List Nat)) :=
  [matchIdent, matchRun isNumDot, matchRun isOpChar,
   matchPunct punctChars, matchQuote 34, matchQuote 39]

/-- `_tokenize_csharp`: findall then drop tokens that strip to empty. -/
def tokenize_csharp (line : List Nat) : List Tok :=
  (findall csharpAlts line).filter (fun t => decide (pstrip t ≠ []))

/-- `_tokenize_javascript`. -/
def tokenize_javascript (line : List Nat) : List Tok :=
  (findall jsAlts line).filter (fun t => decide (pstrip t ≠ []))

/-- `_tokenize_python`. -/
def tokenize_python (line : List Nat) : List Tok :=
  (findall pyAlts line).filter (fun t => decide (pstrip t ≠ []))

/-- `_tokenize_general`. -/
def tokenize_general (line : List Nat) : List Tok :=
  (findall generalAlts line).filter (fun t => decide (pstrip t ≠ []))

/-- `_tokenize_code`: split into lines, strip each, skip blank lines, dispatch
on the extension, concatenate the per-line token lists. -/
def tokenize_code (content : List Nat) (ext : Tok) : List Tok :=
  (splitNl content).flatMap (fun rawLine =>
    let line := pstrip rawLine
    if line = [] then []
    else if ext = toCP ".cs" then tokenize_csharp line
    else if ext = toCP ".js" ∨ ext = toCP ".ts" then tokenize_javascript line
    else if ext = toCP ".py" then tokenize_python line
    else tokenize_general line)

example : tokenize_code (toCP "def foo():") (toCP ".py") =
    [toCP "def", toCP "foo", toCP "(", toCP ")", toCP ":"] := by decide

example : tokenize_code (toCP "define") (toCP ".py") =
    [toCP "def", toCP "in", toCP "e"] := by decide

/-! ## Sequence segmentation (`_extract_sequences`) -/

/-- The language-specific sequence-ender table (semicolon and curly brackets
for the C-family tags, colon for Python, semicolon as the default). -/
def enders (ext : Tok) : List Tok :=
  if ext = toCP ".cs" then [[59], [123], [125]]
  else if ext = toCP ".js" then [[59], [123], [125]]
  else if ext = toCP ".ts" then [[59], [123], [125]]
  else if ext = toCP ".py" then [[58]]
  else [[59]]

/-- The control keywords that close a sequence for every language. -/
def controlEnders : List Tok :=
  [toCP "return", toCP "break", toCP "continue", toCP "pass"]

/-- The loop of `_extract_sequences`: append the token to the accumulator;
close (emit) on a language ender or a control keyword (the emptiness test
before each emit mirrors the Python `if current_sequence:`). -/
def extractGo (ext : Tok) (acc : List Tok) : List Tok → List (List Tok)
  | [] => if acc = [] then [] else [acc]
  | t :: ts =>
      if t ∈ enders ext then
        if acc ++ [t] = [] then extractGo ext [] ts
        else (acc ++ [t]) :: extractGo ext [] ts
      else if t ∈ controlEnders then
        if acc ++ [t] = [] then extractGo ext [] ts
        else (acc ++ [t]) :: extractGo ext [] ts
      else extractGo ext (acc ++ [t]) ts

/-- `_extract_sequences(tokens, ext)`. -/
def extract_sequences (tokens : List Tok) (ext : Tok) : List (List Tok) :=
  extractGo ext [] tokens

/-! ## The model and training -/

/-- `CodeNGramModel`: `ngrams` maps a language tag (file extension) to a map
from context (a tuple of `n - 1` tokens) to a counter of next tokens. -/
structure CodeNGramModel where
  n : Nat
  ngrams : List (Tok × List (List Tok × List (Tok × Nat)))
  file_extensions : List Tok
  total_patterns : Nat
  version : Tok
  deriving DecidableEq

/-- `CodeNGramModel(n)`: the fresh model of the constructor. -/
def freshModel (n : Nat) : CodeNGramModel :=
  { n := n, ngrams := [], file_extensions := [], total_patterns := 0,
    version := toCP "2.0" }

/-- `self.ngrams[ext][context][next_token]`, with the `defaultdict`/`Counter`
defaults (an absent key at any level reads as 0). -/
def countOf (M : CodeNGramModel) (ext : Tok) (ctx : List Tok) (t : Tok) : Nat :=
  (alook t ((alook ctx ((alook ext M.ngrams).getD [])).getD [])).getD 0

/-- Sum of all the counts stored in the table. -/
def totalCount (M : CodeNGramModel) : Nat :=
  sumBy (sumBy (sumBy id)) M.ngrams

/-- `self.ngrams[ext][context][next_token] += 1; self.total_patterns += 1`. -/
def incr (M : CodeNGramModel) (ext : Tok) (ctx : List Tok) (t : Tok) :
    CodeNGramModel :=
  { M with
    ngrams :=
      updAt ext (fun cm => updAt ctx (fun ctr => updAt t (· + 1) 0 ctr) [] cm)
        [] M.ngrams,
    total_patterns := M.total_patterns + 1 }

/-- The windows of one sequence: for `len(seq) >= n`, each offset
`i <= len - n` yields the context `seq[i : i + n - 1]` and the next token
`seq[i + n - 1]`. -/
def pats (n : Nat) (seq : List Tok) : List (List Tok × Tok) :=
  if n ≤ seq.length then
    (List.range (seq.length - n + 1)).map
      (fun i => ((seq.drop i).take (n - 1), (seq.drop (i + n - 1)).headD []))
  else []

/-- The inner loop of `train_on_file` over one sequence. -/
def trainSeq (M : CodeNGramModel) (ext : Tok) (seq : List Tok) :
    CodeNGramModel :=
  (pats M.n seq).foldl (fun m p => incr m ext p.1 p.2) M

/-- The loop of `train_on_file` over the extracted sequences. -/
def trainSeqs (M : CodeNGramModel) (ext : Tok) (seqs : List (List Tok)) :
    CodeNGramModel :=
  seqs.foldl (fun m s => trainSeq m ext s) M

/-- The body of `train_on_file` after a successful read: record the extension,
tokenize, segment, and count every window of every sequence. -/
def trainContent (M : CodeNGramModel) (ext : Tok) (content : List Nat) :
    CodeNGramModel :=
  trainSeqs { M with file_extensions := setAdd ext M.file_extensions } ext
    (extract_sequences (tokenize_code content ext) ext)

/-- `train_on_file`: the read outcome of the file collaborator is passed as an
`Option` (`none` = the read raised) and `ext` is the lower-cased extension the
collaborator derives from the path; on a read failure the handler catches the
exception and the model is returned untouched. -/
def train_on_file (M : CodeNGramModel) (ext : Tok)
    (readResult : Option (List Nat)) : CodeNGramModel :=
  match readResult with
  | none => M
  | some content => trainContent M ext content

example :
    (train_on_file (freshModel 2) (toCP ".py") (some (toCP "def foo():"))).ngrams
      = [(toCP ".py",
          [([toCP "def"], [(toCP "foo", 1)]),
           ([toCP "foo"], [(toCP "(", 1)]),
           ([toCP "("], [(toCP ")", 1)]),
           ([toCP ")"], [(toCP ":", 1)])])] := by decide

/-! ## The context-key codec

`to_serializable` encodes each context tuple as `json.dumps(list(context))`
(default arguments: `ensure_ascii=True`, item separator comma-space) and
`load` decodes it with `tuple(json.loads(context_key))`.  The encoder is
embedded in full.  The decoder below accepts exactly the texts the encoder
can produce (the full `json.loads` also accepts other spellings — lone
surrogate escapes, `\x2f` escapes, uppercase hex — that never reach it,
since every persisted key was written by the encoder). -/

/-- A lowercase hexadecimal digit (the `%04x` of the encoder). -/
def hexDig (d : Nat) : Nat := if d < 10 then 48 + d else 87 + d

/-- Four lowercase hex digits of a value below 2^16. -/
def hex4 (v : Nat) : List Nat :=
  [hexDig (v / 4096 % 16), hexDig (v / 256 % 16), hexDig (v / 16 % 16),
   hexDig (v % 16)]

/-- The `ensure_ascii` escape of one code point: quote and backslash get a
backslash escape, the five short control escapes come next, every other code
point below 32 or above 126 becomes `\uXXXX` (a surrogate pair above 2^16),
and the printable ASCII rest stands for itself. -/
def escapeChar (c : Nat) : List Nat :=
  if c = 34 then [92, 34]
  else if c = 92 then [92, 92]
  else if c = 8 then [92, 98]
  else if c = 12 then [92, 102]
  else if c = 10 then [92, 110]
  else if c = 13 then [92, 114]
  else if c = 9 then [92, 116]
  else if c < 32 ∨ 126 < c then
    if c < 65536 then 92 :: 117 :: hex4 c
    else (92 :: 117 :: hex4 (55296 + (c - 65536) / 1024)) ++
         (92 :: 117 :: hex4 (56320 + (c - 65536) % 1024))
  else [c]

/-- A JSON string literal: quote, escaped code points, quote. -/
def quoteStr (t : Tok) : List Nat := (34 :: t.flatMap escapeChar) ++ [34]

/-- The comma-space-separated string literals of `json.dumps`' list body. -/
def joinQuoted : List Tok → List Nat
  | [] => []
  | [t] => quoteStr t
  | t :: rest => quoteStr t ++ 44 :: 32 :: joinQuoted rest

/-- `json.dumps(list(context))`: the encoded context key. -/
def encodeKey (ctx : List Tok) : Tok := (91 :: joinQuoted ctx) ++ [93]

/-- Value of one hexadecimal digit (both cases, as `json.loads` reads it). -/
def hexVal (c : Nat) : Option Nat :=
  if 48 ≤ c ∧ c ≤ 57 then some (c - 48)
  else if 97 ≤ c ∧ c ≤ 102 then some (c - 87)
  else if 65 ≤ c ∧ c ≤ 70 then some (c - 55)
  else none

/-- The single-character escapes of a JSON string reader. -/
def unescapeShort (e : Nat) : Option Nat :=
  if e = 34 then some 34
  else if e = 92 then some 92
  else if e = 47 then some 47
  else if e = 98 then some 8
  else if e = 102 then some 12
  else if e = 110 then some 10
  else if e = 114 then some 13
  else if e = 116 then some 9
  else none

/-- Read the body of a JSON string literal up to its closing quote, decoding
escapes; a `\uXXXX` high surrogate must be completed by a low surrogate. -/
def goStr : List Nat → Option (Tok × List Nat)
  | [] => none
  | 34 :: rest => some ([], rest)
  | 92 :: 117 :: a :: b :: c :: d :: rest =>
      (match hexVal a, hexVal b, hexVal c, hexVal d with
       | some x, some y, some z, some w =>
          let v := 4096 * x + 256 * y + 16 * z + w
          if 55296 ≤ v ∧ v ≤ 56319 then
            match rest with
            | 92 :: 117 :: a2 :: b2 :: c2 :: d2 :: rest2 =>
                (match hexVal a2, hexVal b2, hexVal c2, hexVal d2 with
                 | some x2, some y2, some z2, some w2 =>
                    let u := 4096 * x2 + 256 * y2 + 16 * z2 + w2
                    if 56320 ≤ u ∧ u ≤ 57343 then
                      (goStr rest2).map (fun p =>
                        ((65536 + 1024 * (v - 55296) + (u - 56320)) :: p.1,
                         p.2))
                    else none
                 | _, _, _, _ => none)
            | _ => none
          else if 56320 ≤ v ∧ v ≤ 57343 then none
          else (goStr rest).map (fun p => (v :: p.1, p.2))
       | _, _, _, _ => none)
  | 92 :: e :: rest =>
      (match unescapeShort e with
       | some ch => (goStr rest).map (fun p => (ch :: p.1, p.2))
       | none => none)
  | c :: rest => (goStr rest).map (fun p => (c :: p.1, p.2))

/-- Read one JSON string literal. -/
def parseJString (s : List Nat) : Option (Tok × List Nat) :=
  match s with
  | 34 :: body => goStr body
  | _ => none

/-- Read the comma-space-separated items up to the closing bracket (fuel
bounds the number of items; the caller passes the input length, which always
suffices since every item spans at least two characters). -/
def itemsGo : Nat → List Nat → Option (List Tok)
  | 0, _ => none
  | fuel + 1, s =>
      match parseJString s with
      | none => none
      | some (t, rest) =>
          match rest with
          | [93] => some [t]
          | 44 :: 32 :: rest2 =>
              (match itemsGo fuel rest2 with
               | some ts => some (t :: ts)
               | none => none)
          | _ => none

/-- `tuple(json.loads(context_key))` on an encoder-produced key. -/
def decodeKey (s : Tok) : Option (List Tok) :=
  match s with
  | 91 :: rest =>
      match rest with
      | [93] => some []
      | _ => itemsGo rest.length rest
  | _ => none

example : decodeKey (encodeKey [toCP "def", toCP "a b"]) =
    some [toCP "def", toCP "a b"] := by decide

example : decodeKey (encodeKey [[10, 34, 92, 955, 120000], []]) =
    some [[10, 34, 92, 955, 120000], []] := by decide

/-! ## Persistence (`to_serializable`, `save`, `load`) -/

/-- The persisted snapshot structure: the dictionary `to_serializable`
returns, which `save` hands to `json.dump` (spec §6.1). -/
structure Snapshot where
  version : Tok
  n : Nat
  ngrams : List (Tok × List (Tok × List (Tok × Nat)))
  file_extensions : List Tok
  total_patterns : Nat
  deriving DecidableEq

/-- `to_serializable`: encode every context key, keep everything else. -/
def to_serializable (M : CodeNGramModel) : Snapshot :=
  { version := M.version, n := M.n,
    ngrams := M.ngrams.map (fun p =>
      (p.1, p.2.map (fun q => (encodeKey q.1, q.2)))),
    file_extensions := M.file_extensions,
    total_patterns := M.total_patterns }

/-- `save(filepath, compress)`: the written file as destination name, codec
flag and content; compression appends `.gz` to the destination and stores
the same snapshot under the gzip codec (the codec and the whole-file JSON
text are external collaborators, modelled as faithful transport plus the
flag recording which codec was used). -/
def saveModel (M : CodeNGramModel) (filepath : Tok) (compress : Bool) :
    Tok × (Bool × Snapshot) :=
  (if compress then filepath ++ toCP ".gz" else filepath,
   (compress, to_serializable M))

/-- Decode the context keys of one language's table. -/
def decodeCtxs : List (Tok × List (Tok × Nat)) →
    Option (List (List Tok × List (Tok × Nat)))
  | [] => some []
  | (k, ctr) :: rest =>
      match decodeKey k, decodeCtxs rest with
      | some ctx, some done => some ((ctx, ctr) :: done)
      | _, _ => none

/-- Decode every language's table. -/
def decodeNgrams : List (Tok × List (Tok × List (Tok × Nat))) →
    Option (List (Tok × List (List Tok × List (Tok × Nat))))
  | [] => some []
  | (ext, ctxs) :: rest =>
      match decodeCtxs ctxs, decodeNgrams rest with
      | some cs, some done => some ((ext, cs) :: done)
      | _, _ => none

/-- The body of `load` on a parsed snapshot: every field of the receiving
model is overwritten with the decoded snapshot data (`none` models the
exception `json.loads` raises on an undecodable context key). -/
def loadSnap (_M : CodeNGramModel) (d : Snapshot) : Option CodeNGramModel :=
  match decodeNgrams d.ngrams with
  | some ng =>
      some { version := d.version, n := d.n, file_extensions := d.file_extensions,
             total_patterns := d.total_patterns, ngrams := ng }
  | none => none

/-- `load(filepath)` on a written file: the gzip branch is chosen by the
`.gz` suffix of the name; the chosen codec must be the one the file was
written with (gzip-opening a plain file, or JSON-parsing gzip bytes,
raises), after which both branches parse the same transported snapshot. -/
def loadFile (M : CodeNGramModel) (file : Tok × (Bool × Snapshot)) :
    Option CodeNGramModel :=
  if (toCP ".gz").isSuffixOf file.1 = file.2.1 then loadSnap M file.2.2
  else none

/-! ## Runs of the trainer: training, save and load over a file store -/

/-- One operation of a run; `train` carries the extension the discovery
collaborator derives and the read outcome of the file collaborator. -/
inductive Op where
  | train (ext : Tok) (readResult : Option (List Nat))
  | save (filepath : Tok) (compress : Bool)
  | load (filepath : Tok)

/-- A run's state: the in-memory model and the snapshot files on disk (name,
codec flag, snapshot). -/
structure Sys where
  model : CodeNGramModel
  store : List (Tok × (Bool × Snapshot))

/-- One step of a run.  `save` writes (or overwrites) the destination file;
`load` of a missing file or of an unparsable snapshot raises, the caller
catches and continues with the current model (`main`'s fallback). -/
def step (s : Sys) : Op → Sys
  | Op.train ext readResult =>
      { s with model := train_on_file s.model ext readResult }
  | Op.save filepath compress =>
      let file := saveModel s.model filepath compress
      { s with store := updAt file.1 (fun _ => file.2) file.2 s.store }
  | Op.load filepath =>
      match alook filepath s.store with
      | none => s
      | some fs =>
          match loadFile s.model (filepath, fs) with
          | none => s
          | some m => { s with model := m }

/-- A whole run from a given state. -/
def runOps (s : Sys) (ops : List Op) : Sys := ops.foldl step s

/-- The state a fresh invocation starts from: `CodeNGramModel(n)` and no
snapshot files. -/
def sys0 (n : Nat) : Sys := { model := freshModel n, store := [] }

/-! ## Association-list lemmas -/

theorem alook_updAt {κ ν : Type} [DecidableEq κ] (k k₀ : κ) (f : ν → ν)
    (d : ν) (l : List (κ × ν)) :
    alook k (updAt k₀ f d l) =
      if k = k₀ then some (f ((alook k₀ l).getD d)) else alook k l := by
  induction l with
  | nil =>
      by_cases h : k = k₀ <;> simp [alook, updAt, h]
  | cons p rest ih =>
      obtain ⟨k₁, v⟩ := p
      by_cases h1 : k₀ = k₁
      · subst h1
        by_cases h2 : k = k₀
        · subst h2; simp [alook, updAt]
        · simp [alook, updAt, h2]
      · by_cases h2 : k = k₁
        · subst h2
          have h3 : ¬(k = k₀) := fun h => h1 h.symm
          simp [alook, updAt, h1, h3]
        · simp [alook, updAt, h1, h2, ih]

theorem sumBy_nil {κ ν : Type} (m : ν → Nat) :
    sumBy m ([] : List (κ × ν)) = 0 := rfl

theorem sumBy_cons {κ ν : Type} (m : ν → Nat) (p : κ × ν) (l : List (κ × ν)) :
    sumBy m (p :: l) = m p.2 + sumBy m l := rfl

theorem sumBy_updAt {κ ν : Type} [DecidableEq κ] (m : ν → Nat) (k : κ)
    (f : ν → ν) (d : ν) (hf : ∀ v, m (f v) = m v + 1) (hd : m d = 0)
    (l : List (κ × ν)) :
    sumBy m (updAt k f d l) = sumBy m l + 1 := by
  induction l with
  | nil => simp [sumBy, updAt, hf, hd]
  | cons p rest ih =>
      obtain ⟨k₁, v⟩ := p
      by_cases h : k = k₁ <;>
        simp [updAt, h, sumBy_cons, hf, ih] <;> omega

/-- A generic map over an association list that keeps each value's measure
keeps the total. -/
theorem sumBy_map {κ κ₂ ν ν₂ : Type} (m : ν₂ → Nat) (m₀ : ν → Nat)
    (f : κ × ν → κ₂ × ν₂) (h : ∀ p, m (f p).2 = m₀ p.2) (l : List (κ × ν)) :
    sumBy m (l.map f) = sumBy m₀ l := by
  induction l with
  | nil => rfl
  | cons p rest ih => simp [sumBy_cons, h, ih]

theorem alook_mem {κ ν : Type} [DecidableEq κ] {k : κ} {v : ν}
    {l : List (κ × ν)} (h : alook k l = some v) : (k, v) ∈ l := by
  induction l with
  | nil => simp [alook] at h
  | cons p rest ih =>
      obtain ⟨k₁, v₁⟩ := p
      by_cases h1 : k = k₁
      · subst h1
        simp [alook] at h
        simp [h]
      · simp [alook, h1] at h
        simp [ih h]

theorem mem_updAt_const {κ ν : Type} [DecidableEq κ] {k : κ} {v : ν}
    {l : List (κ × ν)} {p : κ × ν} (h : p ∈ updAt k (fun _ => v) v l) :
    p ∈ l ∨ p.2 = v := by
  induction l with
  | nil =>
      simp [updAt] at h
      simp [h]
  | cons q rest ih =>
      obtain ⟨k₁, v₁⟩ := q
      by_cases h1 : k = k₁
      · simp [updAt, h1] at h
        rcases h with h | h
        · right; simp [h]
        · left; simp [h]
      · simp [updAt, h1] at h
        rcases h with h | h
        · left; simp [h]
        · rcases ih h with h2 | h2
          · left; simp [h2]
          · right; exact h2

/-! ## Counting lemmas -/

theorem countOf_incr (M : CodeNGramModel) (e₀ : Tok) (c₀ : List Tok) (t₀ : Tok)
    (e : Tok) (c : List Tok) (t : Tok) :
    countOf (incr M e₀ c₀ t₀) e c t =
      countOf M e c t + (if e = e₀ ∧ c = c₀ ∧ t = t₀ then 1 else 0) := by
  unfold countOf incr
  simp only [alook_updAt]
  by_cases h1 : e = e₀ <;> by_cases h2 : c = c₀ <;> by_cases h3 : t = t₀ <;>
    simp [h1, h2, h3, alook_updAt]

theorem totalCount_incr (M : CodeNGramModel) (e : Tok) (c : List Tok)
    (t : Tok) : totalCount (incr M e c t) = totalCount M + 1 := by
  unfold totalCount incr
  refine sumBy_updAt (sumBy (sumBy id)) e _ [] (fun cm => ?_) rfl M.ngrams
  refine sumBy_updAt (sumBy id) c _ [] (fun ctr => ?_) rfl cm
  exact sumBy_updAt id t (fun v => v + 1) 0 (fun v => rfl) rfl ctr

theorem incr_n (M : CodeNGramModel) (e : Tok) (c : List Tok) (t : Tok) :
    (incr M e c t).n = M.n := rfl

theorem incr_total (M : CodeNGramModel) (e : Tok) (c : List Tok) (t : Tok) :
    (incr M e c t).total_patterns = M.total_patterns + 1 := rfl

/-- Occurrences of a context/next-token pair in a window list. -/
def countPat (c : List Tok) (t : Tok) : List (List Tok × Tok) → Nat
  | [] => 0
  | p :: rest => (if c = p.1 ∧ t = p.2 then 1 else 0) + countPat c t rest

theorem foldl_incr_n (ext : Tok) (P : List (List Tok × Tok)) :
    ∀ M : CodeNGramModel,
      (P.foldl (fun m p => incr m ext p.1 p.2) M).n = M.n := by
  induction P with
  | nil => intro M; rfl
  | cons p rest ih => intro M; simp [List.foldl, ih, incr_n]

theorem foldl_incr_total (ext : Tok) (P : List (List Tok × Tok)) :
    ∀ M : CodeNGramModel,
      (P.foldl (fun m p => incr m ext p.1 p.2) M).total_patterns =
        M.total_patterns + P.length := by
  induction P with
  | nil => intro M; rfl
  | cons p rest ih =>
      intro M
      simp [List.foldl, ih, incr_total]
      omega

theorem foldl_incr_totalCount (ext : Tok) (P : List (List Tok × Tok)) :
    ∀ M : CodeNGramModel,
      totalCount (P.foldl (fun m p => incr m ext p.1 p.2) M) =
        totalCount M + P.length := by
  induction P with
  | nil => intro M; rfl
  | cons p rest ih =>
      intro M
      simp [List.foldl, ih, totalCount_incr]
      omega

theorem foldl_incr_countOf (ext : Tok) (P : List (List Tok × Tok))
    (e : Tok) (c : List Tok) (t : Tok) :
    ∀ M : CodeNGramModel,
      countOf (P.foldl (fun m p => incr m ext p.1 p.2) M) e c t =
        countOf M e c t + (if e = ext then countPat c t P else 0) := by
  induction P with
  | nil => intro M; simp [countPat]
  | cons p rest ih =>
      intro M
      simp only [List.foldl, ih, countOf_incr, countPat]
      by_cases h1 : e = ext <;> by_cases h2 : c = p.1 <;> by_cases h3 : t = p.2 <;>
        simp [h1, h2, h3] <;> omega

theorem trainSeq_n (M : CodeNGramModel) (ext : Tok) (s : List Tok) :
    (trainSeq M ext s).n = M.n := foldl_incr_n ext (pats M.n s) M

theorem trainSeq_total (M : CodeNGramModel) (ext : Tok) (s : List Tok) :
    (trainSeq M ext s).total_patterns =
      M.total_patterns + (pats M.n s).length :=
  foldl_incr_total ext (pats M.n s) M

theorem trainSeq_totalCount (M : CodeNGramModel) (ext : Tok) (s : List Tok) :
    totalCount (trainSeq M ext s) = totalCount M + (pats M.n s).length :=
  foldl_incr_totalCount ext (pats M.n s) M

theorem trainSeq_countOf (M : CodeNGramModel) (ext : Tok) (s : List Tok)
    (e : Tok) (c : List Tok) (t : Tok) :
    countOf (trainSeq M ext s) e c t =
      countOf M e c t + (if e = ext then countPat c t (pats M.n s) else 0) :=
  foldl_incr_countOf ext (pats M.n s) e c t M

theorem trainSeqs_n (ext : Tok) (seqs : List (List Tok)) :
    ∀ M : CodeNGramModel, (trainSeqs M ext seqs).n = M.n := by
  induction seqs with
  | nil => intro M; rfl
  | cons s rest ih =>
      intro M
      have h1 : trainSeqs M ext (s :: rest) = trainSeqs (trainSeq M ext s) ext rest := rfl
      rw [h1, ih, trainSeq_n]

theorem trainSeqs_total (ext : Tok) (seqs : List (List Tok)) :
    ∀ M : CodeNGramModel,
      (trainSeqs M ext seqs).total_patterns =
        M.total_patterns + ((seqs.map (fun s => (pats M.n s).length)).sum) := by
  induction seqs with
  | nil => intro M; simp [trainSeqs]
  | cons s rest ih =>
      intro M
      have h1 : trainSeqs M ext (s :: rest) = trainSeqs (trainSeq M ext s) ext rest := rfl
      rw [h1, ih]
      simp only [trainSeq_n, trainSeq_total, List.map_cons, List.sum_cons]
      omega

theorem trainSeqs_totalCount (ext : Tok) (seqs : List (List Tok)) :
    ∀ M : CodeNGramModel,
      totalCount (trainSeqs M ext seqs) =
        totalCount M + ((seqs.map (fun s => (pats M.n s).length)).sum) := by
  induction seqs with
  | nil => intro M; simp [trainSeqs]
  | cons s rest ih =>
      intro M
      have h1 : trainSeqs M ext (s :: rest) = trainSeqs (trainSeq M ext s) ext rest := rfl
      rw [h1, ih]
      simp only [trainSeq_n, trainSeq_totalCount, List.map_cons, List.sum_cons]
      omega

theorem trainSeqs_countOf (ext : Tok) (seqs : List (List Tok)) (e : Tok)
    (c : List Tok) (t : Tok) :
    ∀ M : CodeNGramModel,
      countOf (trainSeqs M ext seqs) e c t =
        countOf M e c t +
          (if e = ext then (seqs.map (fun s => countPat c t (pats M.n s))).sum
           else 0) := by
  induction seqs with
  | nil => intro M; simp [trainSeqs]
  | cons s rest ih =>
      intro M
      have h1 : trainSeqs M ext (s :: rest) = trainSeqs (trainSeq M ext s) ext rest := rfl
      rw [h1, ih]
      simp only [trainSeq_n, trainSeq_countOf, List.map_cons, List.sum_cons]
      by_cases h : e = ext <;> simp [h] <;> omega

theorem pats_length (n : Nat) (s : List Tok) :
    (pats n s).length = if n ≤ s.length then s.length - n + 1 else 0 := by
  unfold pats
  split <;> simp

theorem pats_length_int (n : Nat) (s : List Tok) :
    ((pats n s).length : Int) = max 0 ((s.length : Int) - n + 1) := by
  rw [pats_length]
  split <;> omega

theorem trainContent_n (M : CodeNGramModel) (ext : Tok) (content : List Nat) :
    (trainContent M ext content).n = M.n := by
  unfold trainContent
  rw [trainSeqs_n]

theorem trainContent_total (M : CodeNGramModel) (ext : Tok)
    (content : List Nat) :
    (trainContent M ext content).total_patterns =
      M.total_patterns +
        (((extract_sequences (tokenize_code content ext) ext).map
          (fun s => (pats M.n s).length)).sum) := by
  unfold trainContent
  rw [trainSeqs_total]

theorem trainContent_totalCount (M : CodeNGramModel) (ext : Tok)
    (content : List Nat) :
    totalCount (trainContent M ext content) =
      totalCount M +
        (((extract_sequences (tokenize_code content ext) ext).map
          (fun s => (pats M.n s).length)).sum) := by
  unfold trainContent
  rw [trainSeqs_totalCount]
  rfl

/-- The per-key increment one training pass on a file contributes: the number
of windows of the file's sequences that carry this context and next token
(zero off the file's language tag). -/
def fileDelta (n : Nat) (ext : Tok) (content : List Nat) (e : Tok)
    (c : List Tok) (t : Tok) : Nat :=
  if e = ext then
    ((extract_sequences (tokenize_code content ext) ext).map
      (fun s => countPat c t (pats n s))).sum
  else 0

theorem trainContent_countOf (M : CodeNGramModel) (ext : Tok)
    (content : List Nat) (e : Tok) (c : List Tok) (t : Tok) :
    countOf (trainContent M ext content) e c t =
      countOf M e c t + fileDelta M.n ext content e c t := by
  unfold trainContent fileDelta
  rw [trainSeqs_countOf]
  rfl

theorem sum_pats_int (n : Nat) (seqs : List (List Tok)) :
    (((seqs.map (fun s => (pats n s).length)).sum : Nat) : Int) =
      (seqs.map (fun s => max 0 ((s.length : Int) - (n : Int) + 1))).sum := by
  induction seqs with
  | nil => simp
  | cons s ss ih =>
      simp only [List.map_cons, List.sum_cons, Nat.cast_add]
      rw [ih, pats_length_int]

/-- C3: for every model state and every successfully read file, training on
that file increases `total_patterns` by exactly the sum, over the sequences
the segmenter produces for the file's tokens, of
`max(0, length(sequence) - n + 1)`. -/
theorem c3_total_patterns_increase (M : CodeNGramModel) (ext : Tok)
    (content : List Nat) :
    ((train_on_file M ext (some content)).total_patterns : Int) =
      (M.total_patterns : Int) +
        ((extract_sequences (tokenize_code content ext) ext).map
          (fun s => max 0 ((s.length : Int) - (M.n : Int) + 1))).sum := by
  show ((trainContent M ext content).total_patterns : Int) = _
  rw [trainContent_total]
  push_cast [sum_pats_int]
  rw [← sum_pats_int]
  push_cast
  ring

/-- C5, counterexample to the claim as stated: on a model that already holds
counts on the keys a file affects (here: the same file was already trained
once), training on the file twice more does not double the counts reached
after the first of the two passes — it adds the same per-file increment
again (3 ≠ 2 · 2). -/
theorem c5_counterexample :
    let ct := toCP "a :"
    let ext := toCP ".py"
    let M₁ := trainContent (freshModel 2) ext ct
    let M₂ := trainContent M₁ ext ct
    let M₃ := trainContent M₂ ext ct
    fileDelta M₁.n ext ct ext [toCP "a"] (toCP ":") ≠ 0 ∧
    countOf M₂ ext [toCP "a"] (toCP ":") = 2 ∧
    countOf M₃ ext [toCP "a"] (toCP ":") = 3 ∧
    countOf M₃ ext [toCP "a"] (toCP ":") ≠
      2 * countOf M₂ ext [toCP "a"] (toCP ":") := by
  decide

/-- C5, amended: training on the same file twice in succession adds exactly
twice the file's single-pass increment (`fileDelta`) to every stored count,
so a key the file does not affect is unchanged, and a key that held no count
before the two passes ends at exactly double its value after the first
pass. -/
theorem c5_double_training (M : CodeNGramModel) (ext : Tok)
    (content : List Nat) (e : Tok) (c : List Tok) (t : Tok) :
    countOf (trainContent (trainContent M ext content) ext content) e c t =
      countOf M e c t + 2 * fileDelta M.n ext content e c t ∧
    (fileDelta M.n ext content e c t = 0 →
      countOf (trainContent (trainContent M ext content) ext content) e c t =
        countOf M e c t) ∧
    (countOf M e c t = 0 →
      countOf (trainContent (trainContent M ext content) ext content) e c t =
        2 * countOf (trainContent M ext content) e c t) := by
  have h1 := trainContent_countOf M ext content e c t
  have h2 := trainContent_countOf (trainContent M ext content) ext content e c t
  rw [trainContent_n M ext content] at h2
  refine ⟨by omega, fun h => by omega, fun h => by omega⟩

theorem c5_double_training_witness :
    (fileDelta (freshModel 2).n (toCP ".py") (toCP "a :") (toCP ".py")
        [toCP "a"] (toCP ":") = 1 ∧
     countOf (freshModel 2) (toCP ".py") [toCP "a"] (toCP ":") = 0) ∧
    countOf (trainContent (trainContent (freshModel 2) (toCP ".py") (toCP "a :"))
        (toCP ".py") (toCP "a :")) (toCP ".py") [toCP "a"] (toCP ":") =
      2 * countOf (trainContent (freshModel 2) (toCP ".py") (toCP "a :"))
        (toCP ".py") [toCP "a"] (toCP ":") :=
  ⟨by decide,
   (c5_double_training (freshModel 2) (toCP ".py") (toCP "a :") (toCP ".py")
       [toCP "a"] (toCP ":")).2.2 (by decide)⟩

/-- C8: a file whose read raises is caught inside `train_on_file`: no
exception escapes (the function totally returns), the model is exactly what
it was before the call, and training any later file proceeds from that
unaffected model.  In the embedding the read outcome is the `Option`
argument (`none` = the read raised), and every mutation of the Python body
sits after the read, inside the `try`. -/
theorem c8_read_failure_isolated (M : CodeNGramModel) (ext : Tok) :
    train_on_file M ext none = M ∧
    ∀ (ext₂ : Tok) (readResult₂ : Option (List Nat)),
      train_on_file (train_on_file M ext none) ext₂ readResult₂ =
        train_on_file M ext₂ readResult₂ :=
  ⟨rfl, fun _ _ => rfl⟩

/-- C9: a successful `load` overwrites every field of the model — `n`,
`version`, `total_patterns`, `file_extensions` and the whole count table —
with exactly the values decoded from the snapshot; the result does not
depend on the receiving model at all (first conjunct), so counts accumulated
before the load are discarded, never merged. -/
theorem c9_load_replaces_state (M₁ M₂ : CodeNGramModel) (d : Snapshot) :
    loadSnap M₁ d = loadSnap M₂ d ∧
    ∀ m : CodeNGramModel, loadSnap M₁ d = some m →
      m.n = d.n ∧ m.version = d.version ∧
      m.total_patterns = d.total_patterns ∧
      m.file_extensions = d.file_extensions ∧
      decodeNgrams d.ngrams = some m.ngrams := by
  constructor
  · rfl
  · intro m h
    unfold loadSnap at h
    cases hd : decodeNgrams d.ngrams with
    | none => rw [hd] at h; simp at h
    | some ng =>
        rw [hd] at h
        simp only [Option.some.injEq] at h
        subst h
        exact ⟨rfl, rfl, rfl, rfl, rfl⟩

/-! ## Segmenter characterization -/

/-- A token that closes the current sequence: a member of the language's
terminator set or of the control-terminator set. -/
def IsEnd (ext : Tok) (t : Tok) : Prop := t ∈ enders ext ∨ t ∈ controlEnders

instance (ext t : Tok) : Decidable (IsEnd ext t) := by
  unfold IsEnd
  infer_instance

theorem extractGo_closes (ext : Tok) (acc : List Tok) (t : Tok)
    (ts : List Tok) (h : IsEnd ext t) :
    extractGo ext acc (t :: ts) = (acc ++ [t]) :: extractGo ext [] ts := by
  rcases h with h | h
  · simp [extractGo, h]
  · by_cases h1 : t ∈ enders ext <;> simp [extractGo, h, h1]

theorem extractGo_keeps (ext : Tok) (acc : List Tok) (t : Tok)
    (ts : List Tok) (h : ¬ IsEnd ext t) :
    extractGo ext acc (t :: ts) = extractGo ext (acc ++ [t]) ts := by
  rw [IsEnd, not_or] at h
  simp [extractGo, h.1, h.2]

theorem extractGo_props (ext : Tok) (toks : List Tok) :
    ∀ acc : List Tok, (∀ t ∈ acc, ¬ IsEnd ext t) →
      (extractGo ext acc toks).flatten = acc ++ toks ∧
      (∀ s ∈ extractGo ext acc toks, s ≠ []) ∧
      (∀ s ∈ (extractGo ext acc toks).dropLast,
        ∃ t, s.getLast? = some t ∧ IsEnd ext t) ∧
      (∀ s ∈ extractGo ext acc toks, ∀ t ∈ s.dropLast, ¬ IsEnd ext t) := by
  induction toks with
  | nil =>
      intro acc hacc
      by_cases h : acc = []
      · subst h
        simp [extractGo]
      · refine ⟨by simp [extractGo, h], ?_, ?_, ?_⟩
        · intro s hs
          simp [extractGo, h] at hs
          simp [hs, h]
        · intro s hs
          simp [extractGo, h] at hs
        · intro s hs t ht
          simp [extractGo, h] at hs
          subst hs
          exact hacc t (List.dropLast_subset _ ht)
  | cons t ts ih =>
      intro acc hacc
      by_cases hend : IsEnd ext t
      · rw [extractGo_closes ext acc t ts hend]
        obtain ⟨ihj, ihne, ihlast, ihin⟩ := ih [] (by simp)
        refine ⟨?_, ?_, ?_, ?_⟩
        · simp [List.flatten, ihj]
        · intro s hs
          rcases List.mem_cons.1 hs with h | h
          · subst h; simp
          · exact ihne s h
        · intro s hs
          cases hrec : extractGo ext [] ts with
          | nil => rw [hrec] at hs; simp at hs
          | cons r rs =>
              rw [hrec] at hs
              rw [List.dropLast_cons₂] at hs
              rcases List.mem_cons.1 hs with h | h
              · subst h
                exact ⟨t, by simp, hend⟩
              · rw [← hrec] at h
                exact ihlast s h
        · intro s hs u hu
          rcases List.mem_cons.1 hs with h | h
          · subst h
            rw [List.dropLast_concat] at hu
            exact hacc u hu
          · exact ihin s h u hu
      · rw [extractGo_keeps ext acc t ts hend]
        have hacct : ∀ u ∈ acc ++ [t], ¬ IsEnd ext u := by
          intro u hu
          rcases List.mem_append.1 hu with h | h
          · exact hacc u h
          · simp at h; subst h; exact hend
        obtain ⟨ihj, ihne, ihlast, ihin⟩ := ih (acc ++ [t]) hacct
        exact ⟨by rw [ihj]; simp, ihne, ihlast, ihin⟩

theorem extractGo_noEnd (ext : Tok) (toks : List Tok) :
    ∀ acc : List Tok, acc ++ toks ≠ [] → (∀ t ∈ toks, ¬ IsEnd ext t) →
      extractGo ext acc toks = [acc ++ toks] := by
  induction toks with
  | nil =>
      intro acc hne _
      simp at hne
      simp [extractGo, hne]
  | cons t ts ih =>
      intro acc _ hnotend
      rw [extractGo_keeps ext acc t ts (hnotend t (by simp))]
      rw [ih (acc ++ [t]) (by simp) (fun u hu => hnotend u (by simp [hu]))]
      simp

/-- C6: the segmenter appends tokens in order (the emitted sequences
concatenate back to the input), every emitted sequence is non-empty, a
sequence is closed exactly at terminator/control tokens (every sequence
before the last ends in such a token, and no such token sits anywhere but
last in a sequence), a non-empty trailing accumulator is emitted at end of
input, the empty token list yields no sequences, and a non-empty token list
without terminator or control tokens yields exactly one sequence — the whole
list. -/
theorem c6_segmenter (ext : Tok) (toks : List Tok) :
    (toks = [] → extract_sequences toks ext = []) ∧
    (extract_sequences toks ext).flatten = toks ∧
    (∀ s ∈ extract_sequences toks ext, s ≠ []) ∧
    (∀ s ∈ (extract_sequences toks ext).dropLast,
      ∃ t, s.getLast? = some t ∧ IsEnd ext t) ∧
    (∀ s ∈ extract_sequences toks ext, ∀ t ∈ s.dropLast, ¬ IsEnd ext t) ∧
    (toks ≠ [] → (∀ t ∈ toks, ¬ IsEnd ext t) →
      extract_sequences toks ext = [toks]) := by
  obtain ⟨hj, hne, hlast, hin⟩ := extractGo_props ext toks [] (by simp)
  refine ⟨?_, by simpa using hj, hne, hlast, hin, ?_⟩
  · intro h; subst h; rfl
  · intro h1 h2
    exact extractGo_noEnd ext toks [] (by simpa using h1) h2

theorem c6_segmenter_witness :
    extract_sequences [toCP "x"] (toCP ".py") = [[toCP "x"]] :=
  (c6_segmenter (toCP ".py") [toCP "x"]).2.2.2.2.2 (by decide) (by decide)

/-! ## The count-conservation invariant over whole runs -/

/-- Total of the counts stored in a snapshot. -/
def snapTotal (d : Snapshot) : Nat := sumBy (sumBy (sumBy id)) d.ngrams

/-- A snapshot whose `total_patterns` field matches its stored counts. -/
def SnapInv (d : Snapshot) : Prop := d.total_patterns = snapTotal d

/-- A model whose `total_patterns` field matches its stored counts. -/
def ModInv (M : CodeNGramModel) : Prop := M.total_patterns = totalCount M

/-- A run state where the model and every snapshot on disk are coherent. -/
def SysInv (s : Sys) : Prop :=
  ModInv s.model ∧ ∀ p ∈ s.store, SnapInv p.2.2

theorem snapTotal_serializable (M : CodeNGramModel) :
    snapTotal (to_serializable M) = totalCount M := by
  unfold snapTotal to_serializable totalCount
  refine sumBy_map _ _ _ (fun p => ?_) M.ngrams
  show sumBy (sumBy id) (p.2.map (fun q => (encodeKey q.1, q.2))) = sumBy (sumBy id) p.2
  exact sumBy_map (sumBy id) (sumBy id) (fun q => (encodeKey q.1, q.2))
    (fun q => rfl) p.2

theorem decodeCtxs_sum (l : List (Tok × List (Tok × Nat)))
    (l₂ : List (List Tok × List (Tok × Nat))) (h : decodeCtxs l = some l₂) :
    sumBy (sumBy id) l₂ = sumBy (sumBy id) l := by
  induction l generalizing l₂ with
  | nil =>
      unfold decodeCtxs at h
      simp only [Option.some.injEq] at h
      subst h
      rfl
  | cons p rest ih =>
      obtain ⟨k, ctr⟩ := p
      unfold decodeCtxs at h
      cases h1 : decodeKey k with
      | none => rw [h1] at h; simp at h
      | some ctx =>
          cases h2 : decodeCtxs rest with
          | none => rw [h1, h2] at h; simp at h
          | some done =>
              rw [h1, h2] at h
              simp at h
              rw [← h]
              simp [sumBy_cons, ih done h2]

theorem decodeNgrams_sum (l : List (Tok × List (Tok × List (Tok × Nat))))
    (l₂ : List (Tok × List (List Tok × List (Tok × Nat))))
    (h : decodeNgrams l = some l₂) :
    sumBy (sumBy (sumBy id)) l₂ = sumBy (sumBy (sumBy id)) l := by
  induction l generalizing l₂ with
  | nil =>
      unfold decodeNgrams at h
      simp only [Option.some.injEq] at h
      subst h
      rfl
  | cons p rest ih =>
      obtain ⟨ext, ctxs⟩ := p
      unfold decodeNgrams at h
      cases h1 : decodeCtxs ctxs with
      | none => rw [h1] at h; simp at h
      | some cs =>
          cases h2 : decodeNgrams rest with
          | none => rw [h1, h2] at h; simp at h
          | some done =>
              rw [h1, h2] at h
              simp at h
              rw [← h]
              simp [sumBy_cons, ih done h2, decodeCtxs_sum ctxs cs h1]

theorem modInv_train (M : CodeNGramModel) (ext : Tok)
    (readResult : Option (List Nat)) (h : ModInv M) :
    ModInv (train_on_file M ext readResult) := by
  cases readResult with
  | none => exact h
  | some content =>
      unfold ModInv at *
      show (trainContent M ext content).total_patterns =
        totalCount (trainContent M ext content)
      rw [trainContent_total, trainContent_totalCount, h]

theorem modInv_load (M m : CodeNGramModel) (d : Snapshot)
    (h : loadSnap M d = some m) (hd : SnapInv d) : ModInv m := by
  unfold loadSnap at h
  cases h1 : decodeNgrams d.ngrams with
  | none => rw [h1] at h; simp at h
  | some ng =>
      rw [h1] at h
      simp only [Option.some.injEq] at h
      subst h
      unfold ModInv totalCount
      simpa [decodeNgrams_sum d.ngrams ng h1] using hd

theorem sysInv_step (s : Sys) (op : Op) (h : SysInv s) : SysInv (step s op) := by
  obtain ⟨hm, hs⟩ := h
  cases op with
  | train ext readResult => exact ⟨modInv_train s.model ext readResult hm, hs⟩
  | save filepath compress =>
      refine ⟨hm, ?_⟩
      intro p hp
      rcases mem_updAt_const hp with h1 | h1
      · exact hs p h1
      · have hsnap : SnapInv (to_serializable s.model) := by
          unfold SnapInv
          rw [snapTotal_serializable]
          exact hm
        rw [h1]
        exact hsnap
  | load filepath =>
      show SysInv (match alook filepath s.store with
        | none => s
        | some fs =>
            match loadFile s.model (filepath, fs) with
            | none => s
            | some m => { s with model := m })
      split
      · exact ⟨hm, hs⟩
      · rename_i fs heq
        split
        · exact ⟨hm, hs⟩
        · rename_i m heq2
          refine ⟨?_, hs⟩
          unfold loadFile at heq2
          by_cases hflag : (toCP ".gz").isSuffixOf filepath = fs.1
          · rw [if_pos hflag] at heq2
            exact modInv_load s.model m fs.2 heq2 (hs _ (alook_mem heq))
          · rw [if_neg hflag] at heq2
            exact absurd heq2 (by simp)

theorem sysInv_runOps (ops : List Op) :
    ∀ s : Sys, SysInv s → SysInv (runOps s ops) := by
  induction ops with
  | nil => intro s h; exact h
  | cons op rest ih =>
      intro s h
      exact ih (step s op) (sysInv_step s op h)

/-- C4: in every state reachable from a fresh model by any sequence of
training, save and load operations, `total_patterns` equals the sum, over
all language tags, contexts and next tokens, of the stored counts. -/
theorem c4_total_patterns_invariant (n : Nat) (ops : List Op) :
    (runOps (sys0 n) ops).model.total_patterns =
      totalCount (runOps (sys0 n) ops).model :=
  (sysInv_runOps ops (sys0 n) ⟨rfl, by intro p hp; simp [sys0] at hp⟩).1

/-! ## Round trip of the context-key codec -/

/-- A Unicode scalar value: a code point that is not a surrogate and is in
range.  Strings decoded from UTF-8 file content consist of scalars only. -/
def IsScalar (c : Nat) : Prop := c < 55296 ∨ (57343 < c ∧ c < 1114112)

instance (c : Nat) : Decidable (IsScalar c) := by
  unfold IsScalar
  infer_instance

theorem hexVal_hexDig (d : Nat) (h : d < 16) : hexVal (hexDig d) = some d := by
  interval_cases d <;> rfl

theorem goStr_u (v : Nat) (h1 : v < 65536) (hlo : ¬(55296 ≤ v ∧ v ≤ 56319))
    (hhi : ¬(56320 ≤ v ∧ v ≤ 57343)) (z : List Nat) :
    goStr ((92 :: 117 :: hex4 v) ++ z) =
      (goStr z).map (fun p => (v :: p.1, p.2)) := by
  simp only [hex4, List.cons_append, List.nil_append]
  simp only [goStr]
  rw [hexVal_hexDig _ (Nat.mod_lt _ (by omega)),
    hexVal_hexDig _ (Nat.mod_lt _ (by omega)),
    hexVal_hexDig _ (Nat.mod_lt _ (by omega)),
    hexVal_hexDig _ (Nat.mod_lt _ (by omega))]
  have hv : 4096 * (v / 4096 % 16) + 256 * (v / 256 % 16) +
      16 * (v / 16 % 16) + v % 16 = v := by omega
  simp only [hv, if_neg hlo, if_neg hhi]

theorem goStr_u_pair (v u : Nat) (hv1 : 55296 ≤ v) (hv2 : v ≤ 56319)
    (hu1 : 56320 ≤ u) (hu2 : u ≤ 57343) (z : List Nat) :
    goStr ((92 :: 117 :: hex4 v) ++ ((92 :: 117 :: hex4 u) ++ z)) =
      (goStr z).map
        (fun p => ((65536 + 1024 * (v - 55296) + (u - 56320)) :: p.1, p.2)) := by
  simp only [hex4, List.cons_append, List.nil_append]
  simp only [goStr]
  rw [hexVal_hexDig _ (Nat.mod_lt _ (by omega)),
    hexVal_hexDig _ (Nat.mod_lt _ (by omega)),
    hexVal_hexDig _ (Nat.mod_lt _ (by omega)),
    hexVal_hexDig _ (Nat.mod_lt _ (by omega)),
    hexVal_hexDig _ (Nat.mod_lt _ (by omega)),
    hexVal_hexDig _ (Nat.mod_lt _ (by omega)),
    hexVal_hexDig _ (Nat.mod_lt _ (by omega)),
    hexVal_hexDig _ (Nat.mod_lt _ (by omega))]
  have hv : 4096 * (v / 4096 % 16) + 256 * (v / 256 % 16) +
      16 * (v / 16 % 16) + v % 16 = v := by omega
  have hu : 4096 * (u / 4096 % 16) + 256 * (u / 256 % 16) +
      16 * (u / 16 % 16) + u % 16 = u := by omega
  simp only [hv, hu, if_pos (And.intro hv1 hv2), if_pos (And.intro hu1 hu2)]

theorem goStr_escape (c : Nat) (hc : IsScalar c) (z : List Nat) :
    goStr (escapeChar c ++ z) = (goStr z).map (fun p => (c :: p.1, p.2)) := by
  by_cases h34 : c = 34
  · subst h34; simp [escapeChar, goStr, unescapeShort]
  by_cases h92 : c = 92
  · subst h92; simp [escapeChar, goStr, unescapeShort]
  by_cases h8 : c = 8
  · subst h8; simp [escapeChar, goStr, unescapeShort]
  by_cases h12 : c = 12
  · subst h12; simp [escapeChar, goStr, unescapeShort]
  by_cases h10 : c = 10
  · subst h10; simp [escapeChar, goStr, unescapeShort]
  by_cases h13 : c = 13
  · subst h13; simp [escapeChar, goStr, unescapeShort]
  by_cases h9 : c = 9
  · subst h9; simp [escapeChar, goStr, unescapeShort]
  by_cases hesc : c < 32 ∨ 126 < c
  · by_cases hlim : c < 65536
    · have he : escapeChar c = 92 :: 117 :: hex4 c := by
        unfold escapeChar
        simp [h34, h92, h8, h12, h10, h13, h9, hesc, hlim]
      rw [he]
      exact goStr_u c hlim (by rcases hc with h | h <;> omega)
        (by rcases hc with h | h <;> omega) z
    · have he : escapeChar c =
          (92 :: 117 :: hex4 (55296 + (c - 65536) / 1024)) ++
          (92 :: 117 :: hex4 (56320 + (c - 65536) % 1024)) := by
        unfold escapeChar
        simp [h34, h92, h8, h12, h10, h13, h9, hesc, hlim]
      rw [he, List.append_assoc]
      rw [goStr_u_pair (55296 + (c - 65536) / 1024) (56320 + (c - 65536) % 1024)
        (by omega) (by rcases hc with h | h <;> omega)
        (by omega) (by omega) z]
      have hcomb : 65536 + 1024 * (55296 + (c - 65536) / 1024 - 55296) +
          (56320 + (c - 65536) % 1024 - 56320) = c := by omega
      rw [hcomb]
  · have he : escapeChar c = [c] := by
      unfold escapeChar
      simp [h34, h92, h8, h12, h10, h13, h9, hesc]
    rw [he]
    simp only [List.cons_append, List.nil_append]
    simp [goStr, h34, h92]

theorem goStr_quote (t : Tok) (h : ∀ c ∈ t, IsScalar c) (z : List Nat) :
    goStr (t.flatMap escapeChar ++ (34 :: z)) = some (t, z) := by
  induction t with
  | nil => simp [goStr]
  | cons c rest ih =>
      rw [List.flatMap_cons, List.append_assoc,
        goStr_escape c (h c (by simp)) _,
        ih (fun d hd => h d (by simp [hd]))]
      rfl

theorem parseJString_quoteStr (t : Tok) (h : ∀ c ∈ t, IsScalar c)
    (z : List Nat) : parseJString (quoteStr t ++ z) = some (t, z) := by
  have he : quoteStr t ++ z = 34 :: (t.flatMap escapeChar ++ (34 :: z)) := by
    simp [quoteStr]
  rw [he]
  simp only [parseJString]
  exact goStr_quote t h z

theorem joinQuoted_length (ctx : List Tok) :
    ctx.length ≤ (joinQuoted ctx).length := by
  induction ctx with
  | nil => simp [joinQuoted]
  | cons t rest ih =>
      cases rest with
      | nil => simp [joinQuoted, quoteStr]
      | cons t2 rest2 =>
          have he : joinQuoted (t :: t2 :: rest2) =
              quoteStr t ++ 44 :: 32 :: joinQuoted (t2 :: rest2) := rfl
          rw [he]
          simp only [List.length_cons, List.length_append, quoteStr,
            List.length_cons] at *
          omega

theorem itemsGo_joinQuoted (ctx : List Tok) :
    ctx ≠ [] → (∀ t ∈ ctx, ∀ c ∈ t, IsScalar c) →
    ∀ fuel : Nat, ctx.length ≤ fuel →
      itemsGo fuel (joinQuoted ctx ++ [93]) = some ctx := by
  induction ctx with
  | nil => intro h; exact absurd rfl h
  | cons t rest ih =>
      intro _ hsc fuel hfuel
      cases fuel with
      | zero => simp at hfuel
      | succ f =>
          cases rest with
          | nil =>
              have he : joinQuoted [t] ++ [93] = quoteStr t ++ [93] := rfl
              rw [he]
              simp only [itemsGo,
                parseJString_quoteStr t (hsc t (by simp)) [93]]
          | cons t2 rest2 =>
              have he : joinQuoted (t :: t2 :: rest2) ++ [93] =
                  quoteStr t ++ (44 :: 32 :: (joinQuoted (t2 :: rest2) ++ [93])) := by
                simp [joinQuoted]
              rw [he]
              simp only [itemsGo,
                parseJString_quoteStr t (hsc t (by simp)) _]
              rw [ih (by simp) (fun u hu => hsc u (by simp [hu])) f (by simp at hfuel ⊢; omega)]

theorem joinQuoted_cons_head (t : Tok) (rest : List Tok) :
    ∃ l : List Nat, joinQuoted (t :: rest) = 34 :: l := by
  cases rest with
  | nil => exact ⟨t.flatMap escapeChar ++ [34], by simp [joinQuoted, quoteStr]⟩
  | cons t2 rest2 =>
      refine ⟨(t.flatMap escapeChar ++ [34]) ++
        44 :: 32 :: joinQuoted (t2 :: rest2), ?_⟩
      show quoteStr t ++ 44 :: 32 :: joinQuoted (t2 :: rest2) = _
      simp [quoteStr]

theorem decodeKey_encodeKey (ctx : List Tok)
    (h : ∀ t ∈ ctx, ∀ c ∈ t, IsScalar c) :
    decodeKey (encodeKey ctx) = some ctx := by
  cases ctx with
  | nil => rfl
  | cons t rest =>
      obtain ⟨l, hl⟩ := joinQuoted_cons_head t rest
      have he : encodeKey (t :: rest) = 91 :: (34 :: l) ++ [93] := by
        simp [encodeKey, hl]
      rw [he]
      simp only [decodeKey, List.cons_append]
      have hlen : (t :: rest).length ≤ ((34 :: l) ++ [93]).length := by
        have := joinQuoted_length (t :: rest)
        rw [hl] at this
        simp at this ⊢
        omega
      have hitems := itemsGo_joinQuoted (t :: rest) (by simp) h
        (((34 :: l) ++ [93]).length) hlen
      rw [hl] at hitems
      simpa using hitems

theorem decodeCtxs_encodeKey (l : List (List Tok × List (Tok × Nat)))
    (h : ∀ q ∈ l, ∀ t ∈ q.1, ∀ c ∈ t, IsScalar c) :
    decodeCtxs (l.map (fun q => (encodeKey q.1, q.2))) = some l := by
  induction l with
  | nil => rfl
  | cons q rest ih =>
      simp only [List.map_cons, decodeCtxs,
        decodeKey_encodeKey q.1 (h q (by simp)),
        ih (fun r hr => h r (by simp [hr]))]

theorem decodeNgrams_encodeKey
    (l : List (Tok × List (List Tok × List (Tok × Nat))))
    (h : ∀ p ∈ l, ∀ q ∈ p.2, ∀ t ∈ q.1, ∀ c ∈ t, IsScalar c) :
    decodeNgrams (l.map (fun p =>
      (p.1, p.2.map (fun q => (encodeKey q.1, q.2))))) = some l := by
  induction l with
  | nil => rfl
  | cons p rest ih =>
      simp only [List.map_cons, decodeNgrams,
        decodeCtxs_encodeKey p.2 (h p (by simp)),
        ih (fun r hr => h r (by simp [hr]))]

/-- Every context key stored in the model consists of Unicode scalar values —
true of every model built by training, since tokens come from UTF-8-decoded
file content. -/
def CtxScalar (M : CodeNGramModel) : Prop :=
  ∀ p ∈ M.ngrams, ∀ q ∈ p.2, ∀ t ∈ q.1, ∀ c ∈ t, IsScalar c

instance (M : CodeNGramModel) : Decidable (CtxScalar M) := by
  unfold CtxScalar
  infer_instance

/-- The derived per-language vocabulary: every token observed for a language,
as context member or next token.  (Schema 2.0 persists no separate
vocabulary field; the vocabulary is determined by the count table.) -/
def vocabOf (M : CodeNGramModel) (ext : Tok) : List Tok :=
  ((alook ext M.ngrams).getD []).flatMap (fun q => q.1 ++ q.2.map (fun r => r.1))

/-- C2: for every model with `n ≥ 2` (whose context keys are scalar strings
— guaranteed for every trained model by `ctxScalar_fresh` and
`ctxScalar_train_on_file` below), and for compressed as well as uncompressed
persistence, loading the saved file into any model yields exactly the
original model — in particular identical per-language per-context next-token
counts, identical (derived) vocabulary, and identical `total_patterns`.  The
last hypothesis excludes the one codec corner the suffix-based detection
cannot survive: an uncompressed save to a destination that already ends in
`.gz` would be gzip-opened on load and raise. -/
theorem c2_round_trip (M M₀ : CodeNGramModel) (filepath : Tok)
    (compress : Bool) (_hn : 2 ≤ M.n) (hsc : CtxScalar M)
    (hgz : compress = true ∨ (toCP ".gz").isSuffixOf filepath = false) :
    loadFile M₀ (saveModel M filepath compress) = some M ∧
    (∀ m : CodeNGramModel, loadFile M₀ (saveModel M filepath compress) = some m →
      (∀ ext ctx t, countOf m ext ctx t = countOf M ext ctx t) ∧
      (∀ ext, vocabOf m ext = vocabOf M ext) ∧
      m.total_patterns = M.total_patterns) := by
  have hload : loadFile M₀ (saveModel M filepath compress) = some M := by
    have hbody : loadSnap M₀ (to_serializable M) = some M := by
      unfold loadSnap to_serializable
      simp only [decodeNgrams_encodeKey M.ngrams hsc]
    unfold loadFile saveModel
    cases compress with
    | true =>
        have hsuf : (toCP ".gz").isSuffixOf (filepath ++ toCP ".gz") = true := by
          rw [List.isSuffixOf_iff_suffix]
          exact List.suffix_append filepath (toCP ".gz")
        simpa [hsuf] using hbody
    | false =>
        have hsuf : (toCP ".gz").isSuffixOf filepath = false := by
          rcases hgz with hgz | hgz
          · exact absurd hgz (by simp)
          · exact hgz
        simpa [hsuf] using hbody
  refine ⟨hload, ?_⟩
  intro m hm
  rw [hload] at hm
  simp only [Option.some.injEq] at hm
  subst hm
  exact ⟨fun _ _ _ => rfl, fun _ => rfl, rfl⟩

theorem c2_round_trip_witness :
    (2 ≤ (train_on_file (freshModel 2) (toCP ".py") (some (toCP "def foo():"))).n ∧
     CtxScalar (train_on_file (freshModel 2) (toCP ".py") (some (toCP "def foo():")))) ∧
    loadFile (freshModel 4)
      (saveModel (train_on_file (freshModel 2) (toCP ".py") (some (toCP "def foo():")))
        (toCP "model.json") true) =
      some (train_on_file (freshModel 2) (toCP ".py") (some (toCP "def foo():"))) :=
  ⟨⟨by decide, by decide⟩,
   (c2_round_trip (train_on_file (freshModel 2) (toCP ".py") (some (toCP "def foo():")))
     (freshModel 4) (toCP "model.json") true (by decide) (by decide)
     (Or.inl rfl)).1⟩

/-! ## The remaining claims: n-mismatch on load, the worked example, and
keyword matching without word boundaries -/

/-- C1 (the code, against the claim): `load` performs no compatibility check
at all — restoring a snapshot whose stored `n` differs from the model's
configured `n` succeeds and silently adopts the snapshot's `n`, instead of
failing with an `IncompatibleConfigError` as the specification requires.
Here a model constructed with `n = 4` loads a (trained, `n = 2`) snapshot:
the load returns a model rather than an error, and its `n` is 2. -/
theorem c1_no_mismatch_guard :
    (freshModel 4).n = 4 ∧
    (to_serializable (train_on_file (freshModel 2) (toCP ".py")
      (some (toCP "def foo():")))).n = 2 ∧
    loadSnap (freshModel 4)
      (to_serializable (train_on_file (freshModel 2) (toCP ".py")
        (some (toCP "def foo():")))) =
      some (train_on_file (freshModel 2) (toCP ".py")
        (some (toCP "def foo():"))) ∧
    (train_on_file (freshModel 2) (toCP ".py")
      (some (toCP "def foo():"))).n = 2 := by
  refine ⟨rfl, rfl, by decide, by decide⟩

/-- C7: the worked example.  With the Python profile and `n = 2`, the line
`def foo():` tokenizes to exactly `[def, foo, (, ), :]`; segmentation closes
exactly one sequence at the colon; and training stores exactly the four
patterns `(def)→foo`, `(foo)→(`, `(()→)`, `())→:`, each with count 1, and
nothing else. -/
theorem c7_worked_example :
    tokenize_code (toCP "def foo():") (toCP ".py") =
      [toCP "def", toCP "foo", toCP "(", toCP ")", toCP ":"] ∧
    extract_sequences [toCP "def", toCP "foo", toCP "(", toCP ")", toCP ":"]
        (toCP ".py") =
      [[toCP "def", toCP "foo", toCP "(", toCP ")", toCP ":"]] ∧
    (train_on_file (freshModel 2) (toCP ".py")
        (some (toCP "def foo():"))).ngrams =
      [(toCP ".py",
        [([toCP "def"], [(toCP "foo", 1)]),
         ([toCP "foo"], [(toCP "(", 1)]),
         ([toCP "("], [(toCP ")", 1)]),
         ([toCP ")"], [(toCP ":", 1)])])] ∧
    (train_on_file (freshModel 2) (toCP ".py")
        (some (toCP "def foo():"))).total_patterns = 4 := by
  refine ⟨by decide, by decide, by decide, by decide⟩

/-- C10, counterexample to the example as stated: the Python profile does
not tokenize the line `define` to `[def, ine]`. -/
theorem c10_counterexample :
    tokenize_code (toCP "define") (toCP ".py") ≠ [toCP "def", toCP "ine"] := by
  decide

/-- C10, amended: keywords do match without word boundaries, so an
identifier beginning with a reserved keyword is split — but the remainder is
itself re-scanned the same way, so `define` becomes the three tokens
`[def, in, e]` (after `def`, the remainder `ine` starts with the keyword
`in`), not the two tokens `[def, ine]` and not the single identifier
`define`. -/
theorem c10_keyword_no_boundary :
    tokenize_code (toCP "define") (toCP ".py") =
      [toCP "def", toCP "in", toCP "e"] := by
  decide

theorem c9_load_replaces_state_witness :
    (loadSnap (freshModel 4)
        (to_serializable (train_on_file (freshModel 2) (toCP ".py")
          (some (toCP "a : b")))) =
      loadSnap (freshModel 7)
        (to_serializable (train_on_file (freshModel 2) (toCP ".py")
          (some (toCP "a : b"))))) ∧
    ((train_on_file (freshModel 2) (toCP ".py") (some (toCP "a : b"))).n =
        (to_serializable (train_on_file (freshModel 2) (toCP ".py")
          (some (toCP "a : b")))).n ∧
      (train_on_file (freshModel 2) (toCP ".py") (some (toCP "a : b"))).version =
        (to_serializable (train_on_file (freshModel 2) (toCP ".py")
          (some (toCP "a : b")))).version ∧
      (train_on_file (freshModel 2) (toCP ".py") (some (toCP "a : b"))).total_patterns =
        (to_serializable (train_on_file (freshModel 2) (toCP ".py")
          (some (toCP "a : b")))).total_patterns ∧
      (train_on_file (freshModel 2) (toCP ".py") (some (toCP "a : b"))).file_extensions =
        (to_serializable (train_on_file (freshModel 2) (toCP ".py")
          (some (toCP "a : b")))).file_extensions ∧
      decodeNgrams (to_serializable (train_on_file (freshModel 2) (toCP ".py")
          (some (toCP "a : b")))).ngrams =
        some (train_on_file (freshModel 2) (toCP ".py")
          (some (toCP "a : b"))).ngrams) :=
  ⟨(c9_load_replaces_state (freshModel 4) (freshModel 7)
      (to_serializable (train_on_file (freshModel 2) (toCP ".py")
        (some (toCP "a : b"))))).1,
   (c9_load_replaces_state (freshModel 4) (freshModel 7)
      (to_serializable (train_on_file (freshModel 2) (toCP ".py")
        (some (toCP "a : b"))))).2
     (train_on_file (freshModel 2) (toCP ".py") (some (toCP "a : b")))
     (by decide)⟩

/-! ## Training produces scalar context keys

Tokens are built from characters of the file content; UTF-8-decoded content
consists of Unicode scalar values, so every context key a trained model
stores is a scalar string — the hypothesis of the round-trip theorem holds
for every model built by training. -/

/-- A matcher that only returns characters of its input. -/
def MatcherSound (f : List Nat → Option (Tok × List Nat)) : Prop :=
  ∀ s t rest, f s = some (t, rest) →
    (∀ c ∈ t, c ∈ s) ∧ (∀ c ∈ rest, c ∈ s)

theorem matchLit_sound (lit : Tok) : MatcherSound (matchLit lit) := by
  intro s t rest h
  unfold matchLit at h
  by_cases hp : lit.isPrefixOf s
  · rw [if_pos hp] at h
    simp only [Option.some.injEq, Prod.mk.injEq] at h
    obtain ⟨rfl, rfl⟩ := h
    have hpre : lit <+: s := List.isPrefixOf_iff_prefix.1 hp
    exact ⟨fun c hc => hpre.subset hc, fun c hc => List.drop_subset _ s hc⟩
  · rw [if_neg hp] at h
    exact absurd h (by simp)

theorem matchLits_sound (lits : List Tok) : MatcherSound (matchLits lits) := by
  induction lits with
  | nil => intro s t rest h; exact absurd h (by simp [matchLits])
  | cons l ls ih =>
      intro s t rest h
      unfold matchLits at h
      cases h1 : matchLit l s with
      | some r =>
          rw [h1] at h
          simp only [Option.some.injEq] at h
          subst h
          exact matchLit_sound l s t rest h1
      | none => rw [h1] at h; exact ih s t rest h

theorem matchIdent_sound : MatcherSound matchIdent := by
  intro s t rest h
  cases s with
  | nil => exact absurd h (by simp [matchIdent])
  | cons c cs =>
      simp only [matchIdent] at h
      by_cases hc : isIdentStart c
      · rw [if_pos hc] at h
        simp only [Option.some.injEq, Prod.mk.injEq] at h
        obtain ⟨rfl, rfl⟩ := h
        constructor
        · intro d hd
          rcases List.mem_cons.1 hd with rfl | hd
          · simp
          · exact List.mem_cons_of_mem c ((List.takeWhile_prefix _).subset hd)
        · intro d hd
          exact List.mem_cons_of_mem c ((List.dropWhile_suffix _).subset hd)
      · rw [if_neg hc] at h
        exact absurd h (by simp)

theorem matchRun_sound (p : Nat → Bool) : MatcherSound (matchRun p) := by
  intro s t rest h
  unfold matchRun at h
  cases hw : s.takeWhile p with
  | nil => rw [hw] at h; exact absurd h (by simp)
  | cons c cs =>
      rw [hw] at h
      simp only [Option.some.injEq, Prod.mk.injEq] at h
      obtain ⟨rfl, rfl⟩ := h
      constructor
      · intro d hd
        have hmem : d ∈ s.takeWhile p := by rw [hw]; exact hd
        exact (List.takeWhile_prefix _).subset hmem
      · intro d hd
        exact (List.dropWhile_suffix _).subset hd

theorem matchPunct_sound (cs : List Nat) : MatcherSound (matchPunct cs) := by
  intro s t rest h
  cases s with
  | nil => exact absurd h (by simp [matchPunct])
  | cons c rest2 =>
      simp only [matchPunct] at h
      by_cases hc : c ∈ cs
      · rw [if_pos hc] at h
        simp only [Option.some.injEq, Prod.mk.injEq] at h
        obtain ⟨rfl, rfl⟩ := h
        refine ⟨fun d hd => ?_, fun d hd => List.mem_cons_of_mem c hd⟩
        simp at hd
        simp [hd]
      · rw [if_neg hc] at h
        exact absurd h (by simp)

theorem matchQuote_sound (q : Nat) : MatcherSound (matchQuote q) := by
  intro s t rest h
  cases s with
  | nil => exact absurd h (by simp [matchQuote])
  | cons c cs =>
      simp only [matchQuote] at h
      by_cases hc : c = q
      · rw [if_pos hc] at h
        subst hc
        cases hw : cs.dropWhile (fun d => decide (d ≠ c)) with
        | nil => rw [hw] at h; exact absurd h (by simp)
        | cons d after =>
            rw [hw] at h
            simp only [Option.some.injEq, Prod.mk.injEq] at h
            obtain ⟨rfl, rfl⟩ := h
            constructor
            · intro e he
              rcases List.mem_append.1 he with he | he
              · rcases List.mem_cons.1 he with rfl | he
                · simp
                · exact List.mem_cons_of_mem _
                    ((List.takeWhile_prefix _).subset he)
              · simp at he
                simp [he]
            · intro e he
              have h1 : e ∈ cs.dropWhile (fun d => decide (d ≠ c)) := by
                rw [hw]; exact List.mem_cons_of_mem d he
              exact List.mem_cons_of_mem _ ((List.dropWhile_suffix _).subset h1)
      · rw [if_neg hc] at h
        exact absurd h (by simp)

theorem matchVerbatim_sound : MatcherSound matchVerbatim := by
  intro s t rest h
  cases s with
  | nil => exact absurd h (by simp [matchVerbatim])
  | cons c cs =>
      simp only [matchVerbatim] at h
      by_cases hc : c = 64
      · rw [if_pos hc] at h
        subst hc
        cases hq : matchQuote 34 cs with
        | none => rw [hq] at h; exact absurd h (by simp)
        | some r =>
            rw [hq] at h
            simp only [Option.map_some', Option.some.injEq] at h
            obtain ⟨h1, h2⟩ := matchQuote_sound 34 cs r.1 r.2 (by rw [hq])
            simp only [Prod.mk.injEq] at h
            obtain ⟨ht, hr⟩ := h
            rw [← ht, ← hr]
            constructor
            · intro e he
              rcases List.mem_cons.1 he with rfl | he
              · simp
              · exact List.mem_cons_of_mem _ (h1 e he)
            · exact fun e he => List.mem_cons_of_mem _ (h2 e he)
      · rw [if_neg hc] at h
        exact absurd h (by simp)

theorem tryAlts_sound (alts : List (List Nat → Option (Tok × List Nat)))
    (halts : ∀ f ∈ alts, MatcherSound f) : MatcherSound (tryAlts alts) := by
  induction alts with
  | nil => intro s t rest h; exact absurd h (by simp [tryAlts])
  | cons f fs ih =>
      intro s t rest h
      unfold tryAlts at h
      cases h1 : f s with
      | some r =>
          rw [h1] at h
          simp only [Option.some.injEq] at h
          subst h
          exact halts f (by simp) s t rest h1
      | none =>
          rw [h1] at h
          exact ih (fun g hg => halts g (by simp [hg])) s t rest h

theorem findallGo_chars (alts : List (List Nat → Option (Tok × List Nat)))
    (halts : ∀ f ∈ alts, MatcherSound f) (fuel : Nat) :
    ∀ s : List Nat, ∀ t ∈ findallGo alts fuel s, ∀ c ∈ t, c ∈ s := by
  induction fuel with
  | zero => intro s t ht; simp [findallGo] at ht
  | succ f ih =>
      intro s t ht
      cases s with
      | nil => simp [findallGo] at ht
      | cons c cs =>
          unfold findallGo at ht
          cases h1 : tryAlts alts (c :: cs) with
          | some r =>
              rw [h1] at ht
              obtain ⟨htok, hrest⟩ :=
                tryAlts_sound alts halts (c :: cs) r.1 r.2 (by rw [h1])
              rcases List.mem_cons.1 ht with rfl | ht
              · exact htok
              · intro d hd
                exact hrest d (ih r.2 t ht d hd)
          | none =>
              rw [h1] at ht
              intro d hd
              exact List.mem_cons_of_mem c (ih cs t ht d hd)

theorem csharpAlts_sound : ∀ f ∈ csharpAlts, MatcherSound f := by
  intro f hf
  simp only [csharpAlts, List.mem_cons, List.not_mem_nil, or_false] at hf
  rcases hf with rfl | rfl | rfl | rfl | rfl | rfl | rfl | rfl
  · exact matchLits_sound csharpKws
  · exact matchIdent_sound
  · exact matchRun_sound isNumDot
  · exact matchRun_sound isOpChar
  · exact matchPunct_sound punctCharsCs
  · exact matchQuote_sound 34
  · exact matchQuote_sound 39
  · exact matchVerbatim_sound

theorem jsAlts_sound : ∀ f ∈ jsAlts, MatcherSound f := by
  intro f hf
  simp only [jsAlts, List.mem_cons, List.not_mem_nil, or_false] at hf
  rcases hf with rfl | rfl | rfl | rfl | rfl | rfl | rfl | rfl
  · exact matchLits_sound jsKws
  · exact matchIdent_sound
  · exact matchRun_sound isNumDot
  · exact matchRun_sound isOpChar
  · exact matchPunct_sound punctChars
  · exact matchQuote_sound 34
  · exact matchQuote_sound 39
  · exact matchQuote_sound 96

theorem pyAlts_sound : ∀ f ∈ pyAlts, MatcherSound f := by
  intro f hf
  simp only [pyAlts, List.mem_cons, List.not_mem_nil, or_false] at hf
  rcases hf with rfl | rfl | rfl | rfl | rfl | rfl | rfl
  · exact matchLits_sound pyKws
  · exact matchIdent_sound
  · exact matchRun_sound isNumDot
  · exact matchRun_sound isOpChar
  · exact matchPunct_sound punctChars
  · exact matchQuote_sound 34
  · exact matchQuote_sound 39

theorem generalAlts_sound : ∀ f ∈ generalAlts, MatcherSound f := by
  intro f hf
  simp only [generalAlts, List.mem_cons, List.not_mem_nil, or_false] at hf
  rcases hf with rfl | rfl | rfl | rfl | rfl | rfl
  · exact matchIdent_sound
  · exact matchRun_sound isNumDot
  · exact matchRun_sound isOpChar
  · exact matchPunct_sound punctChars
  · exact matchQuote_sound 34
  · exact matchQuote_sound 39

theorem pstrip_subset (l : List Nat) : ∀ c ∈ pstrip l, c ∈ l := by
  intro c hc
  unfold pstrip at hc
  rw [List.mem_reverse] at hc
  have h1 := (List.dropWhile_suffix (l := (l.dropWhile pyIsSpace).reverse)
    (p := pyIsSpace)).subset hc
  rw [List.mem_reverse] at h1
  exact (List.dropWhile_suffix (l := l) (p := pyIsSpace)).subset h1

theorem splitNl_subset (s : List Nat) :
    ∀ piece ∈ splitNl s, ∀ c ∈ piece, c ∈ s := by
  induction s with
  | nil =>
      intro piece hp c hc
      simp [splitNl] at hp
      subst hp
      simp at hc
  | cons d rest ih =>
      intro piece hp c hc
      unfold splitNl at hp
      by_cases hd : d = 10
      · rw [if_pos hd] at hp
        rcases List.mem_cons.1 hp with rfl | hp
        · simp at hc
        · exact List.mem_cons_of_mem d (ih piece hp c hc)
      · rw [if_neg hd] at hp
        cases hs : splitNl rest with
        | nil =>
            rw [hs] at hp
            simp at hp
            subst hp
            simp at hc
            simp [hc]
        | cons p ps =>
            rw [hs] at hp
            rcases List.mem_cons.1 hp with rfl | hp
            · rcases List.mem_cons.1 hc with rfl | hc
              · simp
              · have : c ∈ p := hc
                exact List.mem_cons_of_mem d
                  (ih p (by rw [hs]; simp) c this)
            · exact List.mem_cons_of_mem d (ih piece (by rw [hs]; simp [hp]) c hc)

theorem tokenize_code_chars (content : List Nat) (ext : Tok) :
    ∀ t ∈ tokenize_code content ext, ∀ c ∈ t, c ∈ content := by
  intro t ht c hc
  unfold tokenize_code at ht
  rw [List.mem_flatMap] at ht
  obtain ⟨rawLine, hraw, ht⟩ := ht
  have hline : ∀ d ∈ pstrip rawLine, d ∈ content := fun d hd =>
    splitNl_subset content rawLine hraw d (pstrip_subset rawLine d hd)
  have hfind : ∀ (alts : List (List Nat → Option (Tok × List Nat))),
      (∀ f ∈ alts, MatcherSound f) →
      t ∈ (findall alts (pstrip rawLine)).filter
        (fun u => decide (pstrip u ≠ [])) → c ∈ content := by
    intro alts halts hmem
    have hchar := findallGo_chars alts halts ((pstrip rawLine).length + 1)
      (pstrip rawLine) t (List.mem_of_mem_filter hmem) c hc
    exact hline c hchar
  have ht2 : t ∈ (if ext = toCP ".cs" then tokenize_csharp (pstrip rawLine)
      else if ext = toCP ".js" ∨ ext = toCP ".ts" then
        tokenize_javascript (pstrip rawLine)
      else if ext = toCP ".py" then tokenize_python (pstrip rawLine)
      else tokenize_general (pstrip rawLine)) := by
    by_cases h0 : pstrip rawLine = []
    · rw [if_pos h0] at ht
      simp at ht
    · rw [if_neg h0] at ht
      exact ht
  split at ht2
  · exact hfind csharpAlts csharpAlts_sound ht2
  · split at ht2
    · exact hfind jsAlts jsAlts_sound ht2
    · split at ht2
      · exact hfind pyAlts pyAlts_sound ht2
      · exact hfind generalAlts generalAlts_sound ht2

theorem mem_updAt {κ ν : Type} [DecidableEq κ] {k : κ} {f : ν → ν} {d : ν}
    {l : List (κ × ν)} {p : κ × ν} (h : p ∈ updAt k f d l) :
    p ∈ l ∨ ∃ v, ((k, v) ∈ l ∨ v = d) ∧ p = (k, f v) := by
  induction l with
  | nil =>
      simp [updAt] at h
      exact Or.inr ⟨d, Or.inr rfl, h⟩
  | cons q rest ih =>
      obtain ⟨k₁, v₁⟩ := q
      by_cases h1 : k = k₁
      · subst h1
        simp only [updAt, if_pos rfl] at h
        rcases List.mem_cons.1 h with rfl | h
        · exact Or.inr ⟨v₁, Or.inl (by simp), rfl⟩
        · exact Or.inl (List.mem_cons_of_mem _ h)
      · simp only [updAt, if_neg h1] at h
        rcases List.mem_cons.1 h with rfl | h
        · exact Or.inl (by simp)
        · rcases ih h with h2 | ⟨v, hv, hp⟩
          · exact Or.inl (List.mem_cons_of_mem _ h2)
          · refine Or.inr ⟨v, ?_, hp⟩
            rcases hv with hv | hv
            · exact Or.inl (List.mem_cons_of_mem _ hv)
            · exact Or.inr hv

theorem ctxScalar_incr (M : CodeNGramModel) (ext : Tok) (ctx : List Tok)
    (tok : Tok) (hM : CtxScalar M)
    (hctx : ∀ t ∈ ctx, ∀ c ∈ t, IsScalar c) :
    CtxScalar (incr M ext ctx tok) := by
  intro p hp q hq t ht c hc
  unfold incr at hp
  simp only at hp
  rcases mem_updAt hp with hp | ⟨cm, hcm, rfl⟩
  · exact hM p hp q hq t ht c hc
  · simp only at hq
    rcases mem_updAt hq with hq2 | ⟨ctr, _, rfl⟩
    · rcases hcm with hcm | rfl
      · exact hM (ext, cm) hcm q hq2 t ht c hc
      · simp at hq2
    · simp only at ht
      exact hctx t ht c hc

theorem ctxScalar_foldl (ext : Tok) (P : List (List Tok × Tok)) :
    ∀ M : CodeNGramModel, CtxScalar M →
      (∀ p ∈ P, ∀ t ∈ p.1, ∀ c ∈ t, IsScalar c) →
      CtxScalar (P.foldl (fun m p => incr m ext p.1 p.2) M) := by
  induction P with
  | nil => intro M hM _; exact hM
  | cons p rest ih =>
      intro M hM hP
      exact ih (incr M ext p.1 p.2)
        (ctxScalar_incr M ext p.1 p.2 hM (hP p (by simp)))
        (fun q hq => hP q (by simp [hq]))

theorem pats_ctx_subset (n : Nat) (seq : List Tok) :
    ∀ p ∈ pats n seq, ∀ t ∈ p.1, t ∈ seq := by
  intro p hp t ht
  unfold pats at hp
  by_cases h : n ≤ seq.length
  · rw [if_pos h] at hp
    rw [List.mem_map] at hp
    obtain ⟨i, _, rfl⟩ := hp
    simp only at ht
    exact List.drop_subset i seq (List.take_subset _ _ ht)
  · rw [if_neg h] at hp
    simp at hp

theorem ctxScalar_trainSeqs (ext : Tok) (seqs : List (List Tok)) :
    ∀ M : CodeNGramModel, CtxScalar M →
      (∀ s ∈ seqs, ∀ t ∈ s, ∀ c ∈ t, IsScalar c) →
      CtxScalar (trainSeqs M ext seqs) := by
  induction seqs with
  | nil => intro M hM _; exact hM
  | cons s rest ih =>
      intro M hM hseqs
      refine ih (trainSeq M ext s) ?_ (fun u hu => hseqs u (by simp [hu]))
      exact ctxScalar_foldl ext (pats M.n s) M hM
        (fun p hp t ht => hseqs s (by simp) t (pats_ctx_subset M.n s p hp t ht))

/-- Training on UTF-8-decodable content (all characters scalar) preserves the
scalar-context property; together with `ctxScalar_fresh` this shows the
hypothesis of the round-trip theorem holds for every trained model. -/
theorem ctxScalar_train_on_file (M : CodeNGramModel) (ext : Tok)
    (readResult : Option (List Nat)) (hM : CtxScalar M)
    (hr : ∀ content ∈ readResult, ∀ c ∈ content, IsScalar c) :
    CtxScalar (train_on_file M ext readResult) := by
  cases readResult with
  | none => exact hM
  | some content =>
      show CtxScalar (trainContent M ext content)
      unfold trainContent
      refine ctxScalar_trainSeqs ext _ _ hM ?_
      intro s hs t ht c hc
      have hflat : t ∈ (extract_sequences (tokenize_code content ext) ext).flatten :=
        List.mem_flatten.2 ⟨s, hs, ht⟩
      have hj : (extract_sequences (tokenize_code content ext) ext).flatten =
          tokenize_code content ext := by
        have h0 := (extractGo_props ext (tokenize_code content ext) []
          (by simp)).1
        rw [List.nil_append] at h0
        exact h0
      rw [hj] at hflat
      exact hr content rfl c (tokenize_code_chars content ext t hflat c hc)

theorem ctxScalar_fresh (n : Nat) : CtxScalar (freshModel n) := by
  intro p hp
  simp [freshModel] at hp
